import Mathlib

/-
  Verification of the fsa repository (src/dfa.py) against its specification.

  Strings are modelled as lists of characters. Python dicts are modelled as
  insertion-ordered association lists, Python sets of small nonnegative
  integers as sorted duplicate-free lists (CPython iterates such sets in
  ascending numeric order for the element ranges exercised here). Fallible
  operations run in an Except monad whose errors mirror KeyError,
  IndexError and the ValueError raised by DFA.call.
-/

namespace Fsa

abbrev Str := List Char

def quoteChar : Char := Char.ofNat 39

def lbraceChar : Char := Char.ofNat 123

def rbraceChar : Char := Char.ofNat 125

/-- Regex operations ordered by precedence, from highest to lowest,
mirroring the _Operation IntEnum. -/
inductive Operation
  | NO_OP
  | STAR
  | CONCAT
  | UNION
deriving DecidableEq, Repr

def Operation.val : Operation → Nat
  | .NO_OP => 0
  | .STAR => 1
  | .CONCAT => 2
  | .UNION => 3

/-- Model of the mutable _BasicRegex class: a rendered string together with
the loosest operation applied so far. Mutating methods are modelled as
functions returning the updated value. -/
structure BasicRegex where
  string : Str
  loosest : Operation
deriving DecidableEq, Repr

def EMPTY_LANGUAGE : Str := [lbraceChar, rbraceChar]

def EMPTY_STRING : Str := [quoteChar, quoteChar]

def BasicRegex.empty_language : BasicRegex := ⟨EMPTY_LANGUAGE, .NO_OP⟩

def BasicRegex.empty_string : BasicRegex := ⟨EMPTY_STRING, .NO_OP⟩

/-- The _BasicRegex constructor applied to a symbol. -/
def BasicRegex.init (symbol : Str) : BasicRegex := ⟨symbol, .NO_OP⟩

def BasicRegex.possibly_parenthesized (regex : BasicRegex) (op : Operation) : Str :=
  if op.val < regex.loosest.val then
    '(' :: regex.string ++ [')']
  else
    regex.string

def BasicRegex.star (r : BasicRegex) : BasicRegex :=
  if r.string = EMPTY_LANGUAGE then
    { r with string := EMPTY_STRING }
  else if r.string = EMPTY_STRING then
    r
  else
    { string := r.possibly_parenthesized .STAR ++ ['*'], loosest := .STAR }

def BasicRegex.concat (r other : BasicRegex) : BasicRegex :=
  if other.string = EMPTY_LANGUAGE then
    { string := EMPTY_LANGUAGE, loosest := .NO_OP }
  else if r.string = EMPTY_STRING then
    { string := other.string, loosest := other.loosest }
  else if r.string ≠ EMPTY_LANGUAGE ∧ other.string ≠ EMPTY_STRING then
    { string := r.possibly_parenthesized .CONCAT ++ other.possibly_parenthesized .CONCAT,
      loosest := .CONCAT }
  else
    r

def BasicRegex.union (r other : BasicRegex) : BasicRegex :=
  if r.string = EMPTY_LANGUAGE then
    { string := other.string, loosest := other.loosest }
  else if other.string ≠ EMPTY_LANGUAGE then
    { string := r.possibly_parenthesized .UNION ++ '|' :: other.possibly_parenthesized .UNION,
      loosest := .UNION }
  else
    r

/-- Abstract regex expression trees: the sentinel constructors, single
symbols, and the three combining operations of the regex algebra. -/
inductive RegexAst
  | emptyLang
  | emptyStr
  | sym (c : Char)
  | star (t : RegexAst)
  | cat (a b : RegexAst)
  | alt (a b : RegexAst)
deriving DecidableEq, Repr

/-- Standard regex language semantics of an expression tree. -/
def langOf : RegexAst → Language Char
  | .emptyLang => 0
  | .emptyStr => 1
  | .sym c => {[c]}
  | .star t => KStar.kstar (langOf t)
  | .cat a b => langOf a * langOf b
  | .alt a b => langOf a + langOf b

/-- Applying the mutating regex-algebra operations of _BasicRegex along an
expression tree, yielding the value the Python code would build. -/
def build : RegexAst → BasicRegex
  | .emptyLang => .empty_language
  | .emptyStr => .empty_string
  | .sym c => .init [c]
  | .star t => (build t).star
  | .cat a b => (build a).concat (build b)
  | .alt a b => (build a).union (build b)

/-- Characters that collide with the rendered regex syntax: parentheses,
star, the union bar, the quote used by the empty-string sentinel and the
braces used by the empty-language sentinel. -/
def isSafeChar (c : Char) : Bool :=
  !(c = '(' || c = ')' || c = '*' || c = '|' ||
    c = quoteChar || c = lbraceChar || c = rbraceChar)

/-- A tree is safe when every symbol in it avoids the reserved characters. -/
def RegexAst.safe : RegexAst → Bool
  | .emptyLang => true
  | .emptyStr => true
  | .sym c => isSafeChar c
  | .star t => t.safe
  | .cat a b => a.safe && b.safe
  | .alt a b => a.safe && b.safe

/-- Iterated star constructor, used to describe star chains in renders. -/
def starIter : Nat → RegexAst → RegexAst
  | 0, t => t
  | k + 1, t => .star (starIter k t)

/-- Consume a maximal run of star characters, wrapping the expression once
per star consumed. -/
def scanStars (t : RegexAst) : Str → RegexAst × Str
  | [] => (t, [])
  | c :: r => if c = '*' then scanStars (.star t) r else (t, c :: r)

mutual

/-- Parse one atom of the rendered syntax: a parenthesized expression, an
empty-string sentinel, an empty-language sentinel, or a plain symbol. -/
def parseAtom : Nat → Str → Option (RegexAst × Str)
  | 0, _ => none
  | _ + 1, [] => none
  | fuel + 1, c :: r =>
    if c = '(' then
      match parseUnion fuel r with
      | none => none
      | some (t, r') =>
        match r' with
        | [] => none
        | d :: r'' => if d = ')' then some (t, r'') else none
    else if c = quoteChar then
      match r with
      | d :: r' => if d = quoteChar then some (.emptyStr, r') else none
      | [] => none
    else if c = lbraceChar then
      match r with
      | d :: r' => if d = rbraceChar then some (.emptyLang, r') else none
      | [] => none
    else if isSafeChar c then some (.sym c, r)
    else none

/-- Parse an atom followed by a maximal run of stars. -/
def parseStarred : Nat → Str → Option (RegexAst × Str)
  | 0, _ => none
  | fuel + 1, l =>
    match parseAtom fuel l with
    | none => none
    | some (t, r) => some (scanStars t r)

/-- Parse a nonempty juxtaposition of starred atoms. -/
def parseCat : Nat → Str → Option (RegexAst × Str)
  | 0, _ => none
  | fuel + 1, l =>
    match parseStarred fuel l with
    | none => none
    | some (t, r) => some (parseCatTail fuel t r)

def parseCatTail : Nat → RegexAst → Str → RegexAst × Str
  | 0, acc, l => (acc, l)
  | fuel + 1, acc, l =>
    match parseStarred fuel l with
    | none => (acc, l)
    | some (t, r) => parseCatTail fuel (.cat acc t) r

/-- Parse a union of one or more concatenations separated by bars. -/
def parseUnion : Nat → Str → Option (RegexAst × Str)
  | 0, _ => none
  | fuel + 1, l =>
    match parseCat fuel l with
    | none => none
    | some (t, r) => some (parseUnionTail fuel t r)

def parseUnionTail : Nat → RegexAst → Str → RegexAst × Str
  | 0, acc, l => (acc, l)
  | fuel + 1, acc, l =>
    match l with
    | c :: r =>
      if c = '|' then
        match parseCat fuel r with
        | none => (acc, c :: r)
        | some (t, r') => parseUnionTail fuel (.alt acc t) r'
      else (acc, c :: r)
    | [] => (acc, [])

end

/-- Parse a complete rendered regex; succeeds only when the whole string is
consumed. -/
def parse (l : Str) : Option RegexAst :=
  match parseUnion (8 * l.length + 8) l with
  | some (t, []) => some t
  | _ => none

/-- Error kinds raised by the Python code: KeyError on dict lookups,
IndexError on list indexing, the ValueError raised by DFA.call for a symbol
outside the alphabet, and a fuel marker for the modelled graph traversal. -/
inductive Err
  | keyErrorNat (k : Nat)
  | keyErrorStr (k : Str)
  | indexError
  | valueError (sym : Str)
  | fuelExhausted
deriving DecidableEq, Repr

/-- Lookup in an insertion-ordered association list modelling a dict. -/
def dictGet [DecidableEq κ] (d : List (κ × ν)) (k : κ) : Option ν :=
  match d with
  | [] => none
  | (k', v) :: rest => if k' = k then some v else dictGet rest k

/-- Dict assignment: update in place when the key exists, append otherwise. -/
def dictSet [DecidableEq κ] (d : List (κ × ν)) (k : κ) (v : ν) : List (κ × ν) :=
  match d with
  | [] => [(k, v)]
  | (k', v') :: rest => if k' = k then (k', v) :: rest else (k', v') :: dictSet rest k v

/-- Dict pop without default: value and remaining dict, or a miss. -/
def dictPop [DecidableEq κ] (d : List (κ × ν)) (k : κ) : Option (ν × List (κ × ν)) :=
  match d with
  | [] => none
  | (k', v) :: rest =>
    if k' = k then some (v, rest)
    else
      match dictPop rest k with
      | none => none
      | some (v', rest') => some (v', (k', v) :: rest')

/-- Dict pop with a default value. -/
def dictPopD [DecidableEq κ] (d : List (κ × ν)) (k : κ) (dflt : ν) : ν × List (κ × ν) :=
  match dictPop d k with
  | none => (dflt, d)
  | some p => p

/-- Dict setdefault: return the stored value, inserting the default when
the key is absent. -/
def dictSetdefault [DecidableEq κ] (d : List (κ × ν)) (k : κ) (dflt : ν) :
    ν × List (κ × ν) :=
  match dictGet d k with
  | some v => (v, d)
  | none => (dflt, d ++ [(k, dflt)])

/-- Insert into a sorted duplicate-free list modelling a set of ints. -/
def setInsert (s : List Nat) (x : Nat) : List Nat :=
  match s with
  | [] => [x]
  | y :: rest =>
    if x < y then x :: y :: rest
    else if x = y then y :: rest
    else y :: setInsert rest x

/-- Set discard: remove the element when present. -/
def setRemove (s : List Nat) (x : Nat) : List Nat :=
  match s with
  | [] => []
  | y :: rest => if y = x then rest else y :: setRemove rest x

/-- Bounds-checked list read, raising IndexError like Python indexing. -/
def getIdx (l : List α) (i : Nat) : Except Err α :=
  match l[i]? with
  | some v => .ok v
  | none => .error .indexError

/-- Bounds-checked list write, raising IndexError like Python indexing. -/
def setIdx (l : List α) (i : Nat) (v : α) : Except Err (List α) :=
  if i < l.length then .ok (l.set i v) else .error .indexError

/-- Dict lookup that raises KeyError on a miss, for string keys. -/
def keyGet (d : List (Str × Nat)) (k : Str) : Except Err Nat :=
  match dictGet d k with
  | some v => .ok v
  | none => .error (.keyErrorStr k)

/-- The dict produced by dict(zip(xs, count())): each element is assigned
its position, later duplicates overwriting the stored value in place. -/
def mkIndices (l : List Str) : List (Str × Nat) :=
  l.enum.foldl (fun d p => dictSet d p.2 p.1) []

/-- The zero-filled transition matrix allocated before transitions are
folded in; an undeclared cell keeps the default state index 0. -/
def initMatrix (numStates numSyms : Nat) : List (List Nat) :=
  List.replicate numStates (List.replicate numSyms 0)

/-- Write one matrix cell, evaluating row lookup then column bound as the
Python subscript assignment does. -/
def setCell (m : List (List Nat)) (i j v : Nat) : Except Err (List (List Nat)) := do
  let row ← getIdx m i
  if j < row.length then setIdx m i (row.set j v) else .error .indexError

/-- Fold the declared transitions into the matrix, mirroring the loop in
DFA.init: lookups of the source state, the symbol and the destination state
each raise KeyError on an undeclared identifier. -/
def fillMatrix (state_indices sym_indices : List (Str × Nat))
    (transitions : List (Str × Str × Str)) (m : List (List Nat)) :
    Except Err (List (List Nat)) :=
  transitions.foldlM
    (fun m t => do
      let i ← keyGet state_indices t.1
      let j ← keyGet sym_indices t.2.1
      let v ← keyGet state_indices t.2.2
      setCell m i j v)
    m

/-- The automaton value built by DFA.init: the stored alphabet, the symbol
index dict, the transition matrix, initial index, accepting set and the
regex synthesized at construction time. -/
structure DFA where
  alphabet : List Str
  syms_to_indices : List (Str × Nat)
  trans_matrix : List (List Nat)
  initial : Nat
  accepting : List Nat
  regex : Str
deriving DecidableEq, Repr

/-- The stack-based graph traversal of DFA.remove_unreachables. The deque
is used LIFO; fuel only bounds the modelled loop and is never exhausted on
the inputs considered here. -/
def bfs (m : List (List Nat)) : Nat → List Nat → List Nat → Except Err (List Nat)
  | _, [], reachable => .ok reachable
  | 0, _ :: _, _ => .error .fuelExhausted
  | fuel + 1, orig :: queue, reachable =>
    let reachable := setInsert reachable orig
    match m[orig]? with
    | none => .error .indexError
    | some row =>
      let queue := row.foldl (fun q dest => if dest ∈ reachable then q else dest :: q) queue
      bfs m fuel queue reachable

def bfsFuel (m : List (List Nat)) : Nat :=
  (m.length + 2) * ((m.map List.length).sum + 2)

/-- DFA.update_states: rebuild the matrix keeping only the rows of the
given states (iterated in ascending order as CPython does for these sets),
remapping the initial index and the accepting set to row positions. The
matrix rows are kept verbatim: their entries are not remapped. -/
def update_states (m : List (List Nat)) (initial : Nat) (accepting : List Nat)
    (new_states : List Nat) : Except Err (List (List Nat) × Nat × List Nat) :=
  new_states.foldlM
    (fun acc i => do
      let (new_matrix, cur_initial, new_accepting) := acc
      let cur_initial := if i = cur_initial then new_matrix.length else cur_initial
      let new_accepting :=
        if i ∈ accepting then new_accepting ++ [new_matrix.length] else new_accepting
      let row ← getIdx m i
      Except.ok (new_matrix ++ [row], cur_initial, new_accepting))
    ([], initial, [])

/-- Build the outgoing GNFA edge dict of one original state: union a
single-symbol regex into the edge per transition, register reverse edges,
and give accepting states an empty-string edge to the accept state that
overwrites any edge already present. -/
def buildRow (indices_to_syms : List Str) (accepting : List Nat) (accept i : Nat)
    (row : List Nat) (rev : List (List Nat)) :
    Except Err (List (Nat × BasicRegex) × List (List Nat)) := do
  let (to_dict, rev) ← row.enum.foldlM
    (fun acc p => do
      let (to_dict, rev) := acc
      let (j, dest) := p
      let revTo ← getIdx rev dest
      let rev ← setIdx rev dest (setInsert revTo i)
      let s ← getIdx indices_to_syms j
      let (regex, to_dict) := dictSetdefault to_dict dest BasicRegex.empty_language
      let to_dict := dictSet to_dict dest (regex.union (BasicRegex.init s))
      Except.ok (to_dict, rev))
    (([] : List (Nat × BasicRegex)), rev)
  let to_dict := if i ∈ accepting then dictSet to_dict accept BasicRegex.empty_string else to_dict
  Except.ok (to_dict, rev)

/-- Eliminate one state of the GNFA, folding its incident edges into the
edges between its predecessors and successors. The pop of the predecessor
edge has no default and raises KeyError when the edge is absent. -/
def elimOne (gnfa : List (List (Nat × BasicRegex))) (rev : List (List Nat)) (rip : Nat) :
    Except Err (List (List (Nat × BasicRegex)) × List (List Nat)) := do
  let ripRow ← getIdx gnfa rip
  let (b0, ripRow) := dictPopD ripRow rip BasicRegex.empty_language
  let b := b0.star
  let gnfa ← setIdx gnfa rip ripRow
  let revRip ← getIdx rev rip
  let revRip := setRemove revRip rip
  let rev ← setIdx rev rip revRip
  revRip.foldlM
    (fun acc i => do
      let (gnfa, rev) := acc
      let rowI ← getIdx gnfa i
      match dictPop rowI rip with
      | none => Except.error (.keyErrorNat rip)
      | some (a, rowI) => do
        let gnfa ← setIdx gnfa i rowI
        (ripRow.map Prod.fst).foldlM
          (fun acc j => do
            let (gnfa, rev) := acc
            let ripRowJ ←
              match dictGet ripRow j with
              | some v => Except.ok v
              | none => Except.error (Err.keyErrorNat j)
            let r := (a.concat b).concat ripRowJ
            let rowI ← getIdx gnfa i
            let (gnfa, rev) ←
              match dictGet rowI j with
              | some existing => do
                let gnfa ← setIdx gnfa i (dictSet rowI j (existing.union r))
                Except.ok (gnfa, rev)
              | none => do
                let gnfa ← setIdx gnfa i (dictSet rowI j r)
                let revJ ← getIdx rev j
                let rev ← setIdx rev j (setInsert revJ i)
                Except.ok (gnfa, rev)
            let revJ ← getIdx rev j
            let rev ← setIdx rev j (setRemove revJ rip)
            Except.ok (gnfa, rev))
          (gnfa, rev))
    (gnfa, rev)

/-- DFA.to_regex: build the GNFA over the stored matrix plus synthetic
start and accept states, eliminate the original states in index order, and
return the rendered string of the start-to-accept edge. Line 143 of the
source registers the synthetic start as a predecessor of state 0 regardless
of the actual initial index; that behavior is preserved here. -/
def to_regex (trans_matrix : List (List Nat)) (initial : Nat) (accepting : List Nat)
    (indices_to_syms : List Str) : Except Err Str := do
  let n := trans_matrix.length
  let start := n
  let accept := n + 1
  let rev0 : List (List Nat) := List.replicate accept []
  let rev1 ← setIdx rev0 0 (setInsert [] start)
  let rev := rev1 ++ [accepting]
  let (rows, rev) ← trans_matrix.enum.foldlM
    (fun acc p => do
      let (rows, rev) := acc
      let (i, row) := p
      let (to_dict, rev) ← buildRow indices_to_syms accepting accept i row rev
      Except.ok (rows ++ [to_dict], rev))
    (([] : List (List (Nat × BasicRegex))), rev)
  let gnfa := rows ++ [[(initial, BasicRegex.empty_string)], []]
  let (gnfa, _) ← (List.range n).foldlM (fun acc rip => elimOne acc.1 acc.2 rip) (gnfa, rev)
  let startRow ← getIdx gnfa start
  let result := (dictGet startRow accept).getD BasicRegex.empty_language
  Except.ok result.string

/-- DFA.init: index the states and symbols, fold the transitions into the
matrix, resolve the initial and accepting states, optionally prune
unreachable states, and synthesize the regex eagerly. -/
def construct (states alphabet : List Str) (transitions : List (Str × Str × Str))
    (initial : Str) (accepting : List Str) (optimize : Bool) : Except Err DFA := do
  let state_indices := mkIndices states
  let sym_indices := mkIndices alphabet
  let m0 := initMatrix state_indices.length alphabet.length
  let trans_matrix ← fillMatrix state_indices sym_indices transitions m0
  let initialIdx ← keyGet state_indices initial
  let acceptingIdx ← accepting.foldlM
    (fun s q => do
      let i ← keyGet state_indices q
      Except.ok (setInsert s i))
    ([] : List Nat)
  let (trans_matrix, initialIdx, acceptingIdx) ←
    if optimize then do
      let reachable ← bfs trans_matrix (bfsFuel trans_matrix) [initialIdx] []
      update_states trans_matrix initialIdx acceptingIdx reachable
    else
      Except.ok (trans_matrix, initialIdx, acceptingIdx)
  let regex ← to_regex trans_matrix initialIdx acceptingIdx alphabet
  Except.ok
    { alphabet := alphabet, syms_to_indices := sym_indices, trans_matrix := trans_matrix,
      initial := initialIdx, accepting := acceptingIdx, regex := regex }

/-- One step of DFA.call: the row is fetched first, so an out-of-range
state raises IndexError before the symbol is looked up; a symbol missing
from the alphabet dict raises the ValueError naming that symbol. -/
def DFA.step (A : DFA) (state : Nat) (sym : Str) : Except Err Nat := do
  let row ← getIdx A.trans_matrix state
  let j ←
    match dictGet A.syms_to_indices sym with
    | some j => Except.ok j
    | none => Except.error (Err.valueError sym)
  getIdx row j

/-- DFA.call: fold the transition matrix over the input, then test
membership of the final state in the accepting set. -/
def DFA.call (A : DFA) (s : List Str) : Except Err Bool := do
  let state ← s.foldlM A.step A.initial
  Except.ok (state ∈ A.accepting)

/-- Standard DFA-run semantics stated independently of the error plumbing:
fold the matrix over the input, propagating lookup failure as none. -/
def specRun (A : DFA) (state : Nat) : List Str → Option Nat
  | [] => some state
  | sym :: rest =>
    match A.trans_matrix[state]? with
    | none => none
    | some row =>
      match dictGet A.syms_to_indices sym with
      | none => none
      | some j =>
        match row[j]? with
        | none => none
        | some t => specRun A t rest

/-- Complete a transition list: for every declared pair with no declared
transition, add an explicit transition to the first declared state, which
is the state with internal index 0. -/
def completion (states alphabet : List Str) (transitions : List (Str × Str × Str)) :
    List (Str × Str × Str) :=
  transitions ++
    (states.map (fun s =>
      alphabet.filterMap (fun c =>
        if transitions.any (fun t => t.1 = s ∧ t.2.1 = c) then none
        else some (s, c, states.headD [])))).flatten

/-- Read one matrix cell, as a partial lookup. -/
def getCell (m : List (List Nat)) (i j : Nat) : Option Nat :=
  (m[i]?).bind fun row => row[j]?

/-- Index of the first occurrence of a key in a list of strings. -/
def idxOf (k : Str) : List Str → Nat
  | [] => 0
  | x :: xs => if x = k then 0 else idxOf k xs + 1

/- Concrete identifiers used by the closed evaluations below. -/

def idA : Str := ['a']

def idB : Str := ['b']

def idC : Str := ['c']

def idD : Str := ['d']

def symX : Str := ['x']

/-- A fully declared four-state definition over the alphabet x whose states
b and c are unreachable from the initial state a: a steps to d, d loops,
b and c loop on themselves, and d is the only accepting state. -/
def exTransBC : List (Str × Str × Str) :=
  [(idA, symX, idD), (idB, symX, idB), (idC, symX, idC), (idD, symX, idD)]

/-- A two-state definition whose initial state is the second declared one;
pruning keeps only that state. -/
def exTransLoop : List (Str × Str × Str) :=
  [(idA, symX, idB), (idB, symX, idB)]

/-- A fully declared three-state cycle over the alphabet x. -/
def exTransCycle : List (Str × Str × Str) :=
  [(idA, symX, idB), (idB, symX, idC), (idC, symX, idA)]

/-- A one-state automaton value used to witness the membership theorem. -/
def exDFA : DFA :=
  { alphabet := [symX], syms_to_indices := [(symX, 0)], trans_matrix := [[0]],
    initial := 0, accepting := [0], regex := ['x', '*'] }

/-- The continuation does not begin with a star character. -/
def NoStar : Str → Prop
  | [] => True
  | c :: _ => c ≠ '*'

/-- The continuation is a legal stopping point for a concatenation. -/
def StopCat : Str → Prop
  | [] => True
  | c :: _ => c = ')' ∨ c = '|'

/-- The continuation is a legal stopping point for a union. -/
def StopUnion : Str → Prop
  | [] => True
  | c :: _ => c = ')'

/-- The string parses as one atom with result tree t, leaving any
continuation untouched, for every sufficient fuel. -/
def AtomicB (s : Str) (t : RegexAst) : Prop :=
  ∀ (rest : Str) (fuel : Nat), 8 * (s.length + rest.length) + 2 ≤ fuel →
    parseAtom fuel (s ++ rest) = some (t, rest)

/-- The string is an atom followed by a run of stars. -/
def StarredForm (s : Str) (t : RegexAst) : Prop :=
  ∃ a t0 k, AtomicB a t0 ∧ s = a ++ List.replicate k '*' ∧ t = starIter k t0

/-- The string is a nonempty juxtaposition of starred atoms whose parse
tree is the left fold of the item trees under concatenation. -/
def CatForm (s : Str) (t : RegexAst) : Prop :=
  ∃ (hd : Str × RegexAst) (tl : List (Str × RegexAst)),
    StarredForm hd.1 hd.2 ∧ (∀ p ∈ tl, StarredForm p.1 p.2) ∧
    s = hd.1 ++ (tl.map Prod.fst).flatten ∧
    t = tl.foldl (fun acc p => RegexAst.cat acc p.2) hd.2

/-- The string is a nonempty bar-separated list of concatenations whose
parse tree is the left fold of the component trees under union. -/
def UnionForm (s : Str) (t : RegexAst) : Prop :=
  ∃ (hd : Str × RegexAst) (tl : List (Str × RegexAst)),
    CatForm hd.1 hd.2 ∧ (∀ p ∈ tl, CatForm p.1 p.2) ∧
    s = hd.1 ++ (tl.map (fun p => '|' :: p.1)).flatten ∧
    t = tl.foldl (fun acc p => RegexAst.alt acc p.2) hd.2

/-- Invariant tying a built regex value to a parse tree of its rendered
string: the shape of the render is dictated by the recorded loosest
operation, with multiple components exactly when the loosest operation is
concatenation or union. -/
def Inv (r : BasicRegex) (t : RegexAst) : Prop :=
  match r.loosest with
  | .NO_OP => AtomicB r.string t
  | .STAR => ∃ a t0 k, AtomicB a t0 ∧ r.string = a ++ List.replicate (k + 1) '*' ∧
      t = starIter (k + 1) t0
  | .CONCAT => ∃ (hd : Str × RegexAst) (tl : List (Str × RegexAst)), tl ≠ [] ∧
      StarredForm hd.1 hd.2 ∧ (∀ p ∈ tl, StarredForm p.1 p.2) ∧
      r.string = hd.1 ++ (tl.map Prod.fst).flatten ∧
      t = tl.foldl (fun acc p => RegexAst.cat acc p.2) hd.2
  | .UNION => ∃ (hd : Str × RegexAst) (tl : List (Str × RegexAst)), tl ≠ [] ∧
      CatForm hd.1 hd.2 ∧ (∀ p ∈ tl, CatForm p.1 p.2) ∧
      r.string = hd.1 ++ (tl.map (fun p => '|' :: p.1)).flatten ∧
      t = tl.foldl (fun acc p => RegexAst.alt acc p.2) hd.2

/-- C1: the synthesized regex and the membership test disagree on the code.
Constructing the four-state definition with pruning enabled succeeds and
synthesizes exactly the regex x, whose standard semantics contains the
one-symbol string x, yet the membership test rejects that string: pruning
left a stale matrix entry that to_regex reads as an edge into the synthetic
accept state while call reads it as a reject. -/
theorem c1_regex_membership_mismatch :
    (Except.map DFA.regex (construct [idA, idB, idC, idD] [symX] exTransBC idA [idD] true) =
      Except.ok ['x']) ∧
    (do
      let A ← construct [idA, idB, idC, idD] [symX] exTransBC idA [idD] true
      A.call [symX]) = Except.ok false ∧
    parse ['x'] = some (RegexAst.sym 'x') ∧
    symX ∈ langOf (RegexAst.sym 'x') := by
  exact ⟨rfl, rfl, rfl, rfl⟩

/-- C2: regex synthesis is not total on well-formed stores. On the store
with matrix rows 0 and 1, initial index 1 and accepting set containing 1,
to_regex raises KeyError 0: the code registers the synthetic start state as
a predecessor of state 0 instead of the initial state, so the pop of the
edge from start to state 0 finds no such edge. -/
theorem c2_synthesis_keyerror :
    to_regex [[0], [1]] 1 [1] [['y']] = Except.error (Err.keyErrorNat 0) := by
  rfl

/-- C3: pruning is not invariant. On the four-state definition, building
without pruning accepts the string x while building with pruning rejects
it, because pruning does not remap the surviving matrix rows. -/
theorem c3_pruning_changes_acceptance :
    (do
      let A ← construct [idA, idB, idC, idD] [symX] exTransBC idA [idD] false
      A.call [symX]) = Except.ok true ∧
    (do
      let A ← construct [idA, idB, idC, idD] [symX] exTransBC idA [idD] true
      A.call [symX]) = Except.ok false := by
  exact ⟨rfl, rfl⟩

/-- C4: pruning does not remap matrix entries through the renumbering. On
the two-state definition whose only reachable state is the second one, the
pruned automaton keeps the row entry 1 verbatim although the renumbering
sends old state 1 to new index 0, so the claimed matrix of remapped entries
differs from the one the code produces. -/
theorem c4_pruned_matrix_not_remapped :
    construct [idA, idB] [symX] exTransLoop idB [idB] true =
      Except.ok
        { alphabet := [symX], syms_to_indices := [(symX, 0)], trans_matrix := [[1]],
          initial := 0, accepting := [0], regex := EMPTY_STRING } ∧
    ([[1]] : List (List Nat)) ≠ [[0]] := by
  exact ⟨rfl, by decide⟩

/-- C6: the membership test can raise an error on input made entirely of
declared symbols. On the pruned four-state automaton the symbol x is in the
alphabet dict, yet evaluating the string xx raises IndexError, because a
stale matrix entry sends the run to a state index outside the pruned
matrix. -/
theorem c6_indexerror_on_alphabet_input :
    (Except.map (fun A => dictGet A.syms_to_indices symX)
        (construct [idA, idB, idC, idD] [symX] exTransBC idA [idD] true) =
      Except.ok (some 0)) ∧
    (do
      let A ← construct [idA, idB, idC, idD] [symX] exTransBC idA [idD] true
      A.call [symX, symX]) = Except.error Err.indexError := by
  exact ⟨rfl, rfl⟩

/-- C7: construction fails on a fully valid definition. The three-state
cycle declares every reference correctly, yet construction raises KeyError
with either pruning setting, because the initial state receives internal
index 1 and the synthesis step then pops a start edge that does not
exist. -/
theorem c7_construction_fails_on_valid_definition :
    construct [idA, idB, idC] [symX] exTransCycle idB [idA] false =
      Except.error (Err.keyErrorNat 0) ∧
    construct [idA, idB, idC] [symX] exTransCycle idB [idA] true =
      Except.error (Err.keyErrorNat 0) := by
  exact ⟨rfl, rfl⟩

/-- C8 counterexample: the law saying concat of the empty string with X
equals X fails for the expression built as the concatenation of the symbols
left brace and right brace: that expression renders as the empty-language
sentinel text with recorded operator CONCAT, and prepending the empty
string resets the recorded operator to NO_OP. -/
theorem c8_concat_empty_string_counterexample :
    BasicRegex.empty_string.concat
        ((BasicRegex.init [lbraceChar]).concat (BasicRegex.init [rbraceChar])) ≠
      (BasicRegex.init [lbraceChar]).concat (BasicRegex.init [rbraceChar]) := by
  decide

/-- C8 amended: the absorption laws hold as stated except that concat of
the empty string with X equals X only when X does not carry the rendered
text of the empty-language sentinel with a recorded operator other than
NO_OP; equality is on the rendered text and the recorded operator. -/
theorem c8_absorption_laws (X : BasicRegex) :
    BasicRegex.empty_language.concat X = BasicRegex.empty_language ∧
    BasicRegex.empty_language.union X = X ∧
    BasicRegex.empty_language.star = BasicRegex.empty_string ∧
    (X.loosest = Operation.NO_OP ∨ X.string ≠ EMPTY_LANGUAGE →
      BasicRegex.empty_string.concat X = X) := by
  obtain ⟨xs, xl⟩ := X
  have hne : EMPTY_LANGUAGE = EMPTY_STRING ↔ False := by decide
  refine ⟨?_, ?_, by decide, ?_⟩
  · by_cases h : xs = EMPTY_LANGUAGE <;>
      simp [BasicRegex.concat, BasicRegex.empty_language, BasicRegex.empty_string, h, hne]
  · simp [BasicRegex.union, BasicRegex.empty_language]
  · intro hcase
    by_cases hEL : xs = EMPTY_LANGUAGE
    · have hl : xl = Operation.NO_OP := Or.resolve_right hcase (fun h => h hEL)
      subst hl
      subst hEL
      decide
    · simp [BasicRegex.concat, BasicRegex.empty_string, hEL]

/-- C8 witness: the guarded law instantiated at the symbol a, with the
guard discharged concretely. -/
theorem c8_absorption_laws_witness :
    ((BasicRegex.init [idA.headD 'a']).loosest = Operation.NO_OP ∨
      (BasicRegex.init [idA.headD 'a']).string ≠ EMPTY_LANGUAGE) ∧
    BasicRegex.empty_string.concat (BasicRegex.init [idA.headD 'a']) =
      BasicRegex.init [idA.headD 'a'] := by
  exact ⟨Or.inl (by decide),
    (c8_absorption_laws (BasicRegex.init [idA.headD 'a'])).2.2.2 (Or.inl (by decide))⟩

/-- C10 counterexample: a definition omitting the pair of state b and
symbol x, with every declared reference valid, still makes construction
raise KeyError 0, so construction with an incomplete transition list is not
error free. -/
theorem c10_incomplete_construction_raises :
    construct [idA, idB] [symX] [(idA, symX, idA)] idB [] true =
      Except.error (Err.keyErrorNat 0) := by
  rfl

/- Agreement of the membership evaluator with the specification-side run. -/

theorem step_fold_eq_specRun (A : DFA) :
    ∀ (s : List Str) (st q : Nat),
      (s.foldlM A.step st = Except.ok q ↔ specRun A st s = some q) := by
  intro s
  induction s with
  | nil =>
    intro st q
    simp [List.foldlM_nil, specRun, pure, Except.pure]
  | cons sym rest ih =>
    intro st q
    rw [List.foldlM_cons]
    cases hrow : A.trans_matrix[st]? with
    | none =>
      simp [DFA.step, getIdx, hrow, specRun, Bind.bind, Except.bind]
    | some row =>
      cases hj : dictGet A.syms_to_indices sym with
      | none =>
        simp [DFA.step, getIdx, hrow, hj, specRun, Bind.bind, Except.bind]
      | some j =>
        cases hc : row[j]? with
        | none =>
          simp [DFA.step, getIdx, hrow, hj, hc, specRun, Bind.bind, Except.bind]
        | some t =>
          simp [DFA.step, getIdx, hrow, hj, hc, specRun, Bind.bind, Except.bind, ih]

/-- C5: the membership test returns true exactly when folding the stored
transition matrix over the input from the initial index, in the standard
DFA-run sense, ends in a state of the accepting set. -/
theorem c5_call_agrees_with_run (A : DFA) (s : List Str)
    (h : ∀ sym ∈ s, (dictGet A.syms_to_indices sym).isSome) :
    (A.call s = Except.ok true ↔
      ∃ q, specRun A A.initial s = some q ∧ q ∈ A.accepting) := by
  have hcall : A.call s =
      s.foldlM A.step A.initial >>= fun st => Except.ok (decide (st ∈ A.accepting)) := rfl
  rw [hcall]
  cases hf : s.foldlM A.step A.initial with
  | error e =>
    constructor
    · intro hok
      exact absurd hok (by simp [Bind.bind, Except.bind])
    · rintro ⟨q, hq, _⟩
      have h2 := (step_fold_eq_specRun A s A.initial q).2 hq
      rw [hf] at h2
      exact absurd h2 (by simp)
  | ok st =>
    have hs := (step_fold_eq_specRun A s A.initial st).1 hf
    constructor
    · intro hok
      have hb : decide (st ∈ A.accepting) = true := by
        simpa [Bind.bind, Except.bind] using hok
      exact ⟨st, hs, of_decide_eq_true hb⟩
    · rintro ⟨q, hq, hacc⟩
      rw [hs] at hq
      injection hq with hq
      subst hq
      simp [Bind.bind, Except.bind, hacc]

/-- C5 witness: the agreement instantiated at a one-state automaton and the
input consisting of the single declared symbol. -/
theorem c5_call_agrees_with_run_witness :
    (∀ sym ∈ [symX], (dictGet exDFA.syms_to_indices sym).isSome) ∧
    (exDFA.call [symX] = Except.ok true ↔
      ∃ q, specRun exDFA exDFA.initial [symX] = some q ∧ q ∈ exDFA.accepting) := by
  exact ⟨by decide, c5_call_agrees_with_run exDFA [symX] (by decide)⟩

/- Machinery for the completion result: the index dicts built by
construction, characterized for duplicate-free declarations. -/

theorem dictSet_append_of_not_mem [DecidableEq κ] :
    ∀ (d : List (κ × ν)) (k : κ) (v : ν), (∀ p ∈ d, p.1 ≠ k) →
      dictSet d k v = d ++ [(k, v)] := by
  intro d k v h
  induction d with
  | nil => rfl
  | cons p rest ih =>
    obtain ⟨k', v'⟩ := p
    have hp : k' ≠ k := h (k', v') (by simp)
    simp only [dictSet, if_neg hp, List.cons_append, List.cons.injEq, true_and]
    exact ih (fun q hq => h q (by simp [hq]))

theorem mkIndices_foldl_eq : ∀ (l : List Str) (n : Nat) (d : List (Str × Nat)),
    l.Nodup → (∀ x ∈ l, ∀ p ∈ d, p.1 ≠ x) →
    (l.enumFrom n).foldl (fun d p => dictSet d p.2 p.1) d =
      d ++ (l.enumFrom n).map (fun p => (p.2, p.1)) := by
  intro l
  induction l with
  | nil => intro n d _ _; simp [List.enumFrom]
  | cons x xs ih =>
    intro n d hnodup hfresh
    rw [List.enumFrom_cons]
    simp only [List.foldl_cons, List.map_cons]
    rw [dictSet_append_of_not_mem d x n (fun p hp => hfresh x (by simp) p hp)]
    rw [ih (n + 1) (d ++ [(x, n)]) hnodup.of_cons ?_]
    · simp
    · intro y hy p hp
      rcases List.mem_append.1 hp with hmem | hmem
      · exact hfresh y (by simp [hy]) p hmem
      · have hx : x ∉ xs := (List.nodup_cons.1 hnodup).1
        have : p = (x, n) := by simpa using hmem
        rw [this]
        intro hxy
        apply hx
        have hxy2 : x = y := hxy
        rw [hxy2]
        exact hy

theorem mkIndices_eq_of_nodup (l : List Str) (h : l.Nodup) :
    mkIndices l = l.enum.map (fun p => (p.2, p.1)) := by
  unfold mkIndices
  rw [List.enum_eq_enumFrom]
  simpa using mkIndices_foldl_eq l 0 [] h (by simp)

theorem dictGet_enumFrom_map : ∀ (l : List Str) (n : Nat) (k : Str),
    dictGet ((l.enumFrom n).map (fun p => (p.2, p.1))) k =
      if k ∈ l then some (n + idxOf k l) else none := by
  intro l
  induction l with
  | nil => intro n k; simp [List.enumFrom, dictGet]
  | cons x xs ih =>
    intro n k
    rw [List.enumFrom_cons]
    simp only [List.map_cons]
    by_cases hxk : x = k
    · subst hxk
      simp [dictGet, idxOf]
    · rw [show dictGet ((x, n) :: (xs.enumFrom (n + 1)).map (fun p => (p.2, p.1))) k =
          dictGet ((xs.enumFrom (n + 1)).map (fun p => (p.2, p.1))) k from by
        simp [dictGet, hxk]]
      rw [ih (n + 1) k]
      by_cases hk : k ∈ xs
      · have hmem : k ∈ x :: xs := by simp [hk]
        rw [if_pos hk, if_pos hmem]
        simp only [idxOf, if_neg hxk, Option.some.injEq]
        omega
      · have hmem : k ∉ x :: xs := by
          simp only [List.mem_cons, not_or]
          exact ⟨fun h => hxk h.symm, hk⟩
        rw [if_neg hk, if_neg hmem]

theorem dictGet_mkIndices (l : List Str) (h : l.Nodup) (k : Str) :
    dictGet (mkIndices l) k = if k ∈ l then some (idxOf k l) else none := by
  rw [mkIndices_eq_of_nodup l h, List.enum_eq_enumFrom, dictGet_enumFrom_map]
  simp

theorem idxOf_lt_length : ∀ (l : List Str) (k : Str), k ∈ l → idxOf k l < l.length := by
  intro l
  induction l with
  | nil => intro k h; cases h
  | cons x xs ih =>
    intro k h
    by_cases hxk : x = k
    · simp [idxOf, hxk]
    · have hk : k ∈ xs := by
        rcases List.mem_cons.1 h with h1 | h1
        · exact absurd h1.symm hxk
        · exact h1
      simp only [idxOf, if_neg hxk, List.length_cons]
      exact Nat.succ_lt_succ (ih k hk)

theorem getElem?_idxOf_self : ∀ (l : List Str) (k : Str), k ∈ l →
    l[idxOf k l]? = some k := by
  intro l
  induction l with
  | nil => intro k h; cases h
  | cons x xs ih =>
    intro k h
    by_cases hxk : x = k
    · simp [idxOf, hxk]
    · have hk : k ∈ xs := by
        rcases List.mem_cons.1 h with h1 | h1
        · exact absurd h1.symm hxk
        · exact h1
      simp only [idxOf, if_neg hxk, List.getElem?_cons_succ]
      exact ih k hk

theorem keyGet_eq_ok (d : List (Str × Nat)) (k : Str) :
    ∀ v, (keyGet d k = Except.ok v ↔ dictGet d k = some v) := by
  intro v
  unfold keyGet
  cases h : dictGet d k <;> simp

theorem set_eq_self_of_getElem? : ∀ (l : List α) (j : Nat) (v : α),
    l[j]? = some v → l.set j v = l := by
  intro l
  induction l with
  | nil => intro j v h; simp at h
  | cons a rest ih =>
    intro j v h
    cases j with
    | zero =>
      simp only [List.getElem?_cons_zero, Option.some.injEq] at h
      simp [List.set, h]
    | succ j =>
      simp only [List.getElem?_cons_succ] at h
      simp [List.set, ih j v h]

theorem setCell_eq_self (m : List (List Nat)) (i j : Nat) (row : List Nat)
    (hrow : m[i]? = some row) (hcell : row[j]? = some 0) :
    setCell m i j 0 = Except.ok m := by
  have hj : j < row.length := (List.getElem?_eq_some.1 hcell).1
  have hi : i < m.length := (List.getElem?_eq_some.1 hrow).1
  unfold setCell getIdx
  rw [hrow]
  simp only [Bind.bind, Except.bind]
  rw [if_pos hj]
  unfold setIdx
  rw [set_eq_self_of_getElem? row j 0 hcell]
  rw [set_eq_self_of_getElem? m i row hrow]
  rw [if_pos hi]

theorem setCell_preserves_other (m m₂ : List (List Nat)) (a b v i j : Nat)
    (h : setCell m a b v = Except.ok m₂) (hne : ¬(a = i ∧ b = j)) :
    getCell m₂ i j = getCell m i j := by
  unfold setCell getIdx at h
  cases hrow : m[a]? with
  | none => rw [hrow] at h; simp [Bind.bind, Except.bind] at h
  | some row =>
    rw [hrow] at h
    simp only [Bind.bind, Except.bind] at h
    by_cases hb : b < row.length
    · rw [if_pos hb] at h
      unfold setIdx at h
      have ha : a < m.length := (List.getElem?_eq_some.1 hrow).1
      rw [if_pos ha] at h
      injection h with h
      subst h
      unfold getCell
      by_cases hai : a = i
      · subst hai
        have hbj : b ≠ j := fun hbj => hne ⟨rfl, hbj⟩
        rw [List.getElem?_set_eq_of_lt _ ha, hrow]
        simp only [Option.some_bind]
        rw [List.getElem?_set_ne hbj]
      · rw [List.getElem?_set_ne hai]
    · rw [if_neg hb] at h
      cases h

theorem fillMatrix_preserves_cell (si sy : List (Str × Nat)) (i j : Nat) :
    ∀ (tr : List (Str × Str × Str)) (m m' : List (List Nat)),
      fillMatrix si sy tr m = Except.ok m' →
      (∀ t ∈ tr, ¬(dictGet si t.1 = some i ∧ dictGet sy t.2.1 = some j)) →
      getCell m' i j = getCell m i j := by
  intro tr
  induction tr with
  | nil =>
    intro m m' h _
    unfold fillMatrix at h
    simp only [List.foldlM_nil, pure, Except.pure, Except.ok.injEq] at h
    rw [h]
  | cons t rest ih =>
    intro m m' h hno
    unfold fillMatrix at h
    rw [List.foldlM_cons] at h
    cases hi : keyGet si t.1 with
    | error e => simp [hi, Bind.bind, Except.bind] at h
    | ok a =>
      cases hj2 : keyGet sy t.2.1 with
      | error e => simp [hi, hj2, Bind.bind, Except.bind] at h
      | ok b =>
        cases hv : keyGet si t.2.2 with
        | error e => simp [hi, hj2, hv, Bind.bind, Except.bind] at h
        | ok v =>
          cases hset : setCell m a b v with
          | error e => simp [hi, hj2, hv, hset, Bind.bind, Except.bind] at h
          | ok m₁ =>
            simp only [hi, hj2, hv, hset, Bind.bind, Except.bind] at h
            have hne : ¬(a = i ∧ b = j) := by
              rintro ⟨rfl, rfl⟩
              exact hno t (by simp)
                ⟨(keyGet_eq_ok si t.1 a).1 hi, (keyGet_eq_ok sy t.2.1 b).1 hj2⟩
            have hrest : fillMatrix si sy rest m₁ = Except.ok m' := h
            rw [ih m₁ m' hrest (fun t' ht' => hno t' (by simp [ht']))]
            exact setCell_preserves_other m m₁ a b v i j hset hne

theorem extras_foldlM_id (si sy : List (Str × Nat)) :
    ∀ (ex : List (Str × Str × Str)) (m : List (List Nat)),
      (∀ e ∈ ex, ∃ a b, dictGet si e.1 = some a ∧ dictGet sy e.2.1 = some b ∧
        dictGet si e.2.2 = some 0 ∧ getCell m a b = some 0) →
      fillMatrix si sy ex m = Except.ok m := by
  intro ex
  induction ex with
  | nil => intro m _; unfold fillMatrix; simp [List.foldlM_nil, pure, Except.pure]
  | cons e rest ih =>
    intro m hx
    obtain ⟨a, b, ha, hb, h0, hcell⟩ := hx e (by simp)
    unfold fillMatrix
    rw [List.foldlM_cons]
    have hka : keyGet si e.1 = Except.ok a := (keyGet_eq_ok si e.1 a).2 ha
    have hkb : keyGet sy e.2.1 = Except.ok b := (keyGet_eq_ok sy e.2.1 b).2 hb
    have hk0 : keyGet si e.2.2 = Except.ok 0 := (keyGet_eq_ok si e.2.2 0).2 h0
    obtain ⟨row, hrow, hrc⟩ : ∃ row, m[a]? = some row ∧ row[b]? = some 0 := by
      unfold getCell at hcell
      cases hr : m[a]? with
      | none => rw [hr] at hcell; cases hcell
      | some row =>
        rw [hr] at hcell
        exact ⟨row, rfl, by simpa [Option.some_bind] using hcell⟩
    have hsc : setCell m a b 0 = Except.ok m := setCell_eq_self m a b row hrow hrc
    simp only [hka, hkb, hk0, hsc, Bind.bind, Except.bind]
    exact ih m (fun e' he' => hx e' (by simp [he']))

/-- C10 amended: matrix construction performs no completeness validation
and treats an omitted pair exactly as a declared transition to the state
with internal index 0, the first declared state: for duplicate-free
declarations, constructing from the completed transition list gives the
same result, error or automaton, as constructing from the original one, so
membership evaluation and regex synthesis cannot tell them apart; the
separate counterexample shows construction may still fail, for a reason
unrelated to completeness. -/
theorem c10_completion_invariant (states alphabet : List Str)
    (transitions : List (Str × Str × Str)) (initial : Str) (accepting : List Str)
    (optimize : Bool) (h2 : states.Nodup) (h3 : alphabet.Nodup) :
    construct states alphabet (completion states alphabet transitions) initial accepting
        optimize =
      construct states alphabet transitions initial accepting optimize := by
  have hfill : fillMatrix (mkIndices states) (mkIndices alphabet)
      (completion states alphabet transitions)
      (initMatrix (mkIndices states).length alphabet.length) =
    fillMatrix (mkIndices states) (mkIndices alphabet) transitions
      (initMatrix (mkIndices states).length alphabet.length) := by
    unfold completion
    unfold fillMatrix
    rw [List.foldlM_append]
    cases hm : List.foldlM
        (fun m t => do
          let i ← keyGet (mkIndices states) t.1
          let j ← keyGet (mkIndices alphabet) t.2.1
          let v ← keyGet (mkIndices states) t.2.2
          setCell m i j v)
        (initMatrix (mkIndices states).length alphabet.length) transitions with
    | error e => simp [Bind.bind, Except.bind]
    | ok m =>
      simp only [Bind.bind, Except.bind]
      have hid := extras_foldlM_id (mkIndices states) (mkIndices alphabet)
        ((states.map (fun s =>
          alphabet.filterMap (fun c =>
            if transitions.any (fun t => t.1 = s ∧ t.2.1 = c) then none
            else some (s, c, states.headD [])))).flatten) m ?_
      · unfold fillMatrix at hid
        exact hid
      · intro e he
        rw [List.mem_flatten] at he
        obtain ⟨lst, hlst, helst⟩ := he
        rw [List.mem_map] at hlst
        obtain ⟨s, hs, rfl⟩ := hlst
        rw [List.mem_filterMap] at helst
        obtain ⟨c, hc, hcond⟩ := helst
        have hnotany : transitions.any (fun t => t.1 = s ∧ t.2.1 = c) = false := by
          by_cases hany : transitions.any (fun t => t.1 = s ∧ t.2.1 = c)
          · rw [if_pos hany] at hcond; cases hcond
          · simp only [Bool.not_eq_true] at hany
            exact hany
        rw [hnotany] at hcond
        rw [if_neg (by simp)] at hcond
        injection hcond with hcond
        subst hcond
        obtain ⟨s0, ss, rfl⟩ : ∃ s0 ss, states = s0 :: ss := by
          cases states with
          | nil => cases hs
          | cons s0 ss => exact ⟨s0, ss, rfl⟩
        refine ⟨idxOf s (s0 :: ss), idxOf c alphabet, ?_, ?_, ?_, ?_⟩
        · rw [dictGet_mkIndices _ h2, if_pos hs]
        · rw [dictGet_mkIndices _ h3, if_pos hc]
        · simp only [List.headD_cons]
          rw [dictGet_mkIndices _ h2, if_pos (by simp)]
          simp [idxOf]
        · have hno : ∀ t ∈ transitions,
              ¬(dictGet (mkIndices (s0 :: ss)) t.1 = some (idxOf s (s0 :: ss)) ∧
                dictGet (mkIndices alphabet) t.2.1 = some (idxOf c alphabet)) := by
            rintro t ht ⟨hts, htc⟩
            rw [dictGet_mkIndices _ h2] at hts
            rw [dictGet_mkIndices _ h3] at htc
            by_cases hmem : t.1 ∈ s0 :: ss
            · rw [if_pos hmem] at hts
              injection hts with hts
              by_cases hmem2 : t.2.1 ∈ alphabet
              · rw [if_pos hmem2] at htc
                injection htc with htc
                have heq1 : t.1 = s := by
                  have g1 := getElem?_idxOf_self (s0 :: ss) t.1 hmem
                  have g2 := getElem?_idxOf_self (s0 :: ss) s hs
                  rw [hts, g2] at g1
                  injection g1 with g1
                  exact g1.symm
                have heq2 : t.2.1 = c := by
                  have g1 := getElem?_idxOf_self alphabet t.2.1 hmem2
                  have g2 := getElem?_idxOf_self alphabet c hc
                  rw [htc, g2] at g1
                  injection g1 with g1
                  exact g1.symm
                have : transitions.any (fun t => t.1 = s ∧ t.2.1 = c) = true := by
                  rw [List.any_eq_true]
                  exact ⟨t, ht, by simp [heq1, heq2]⟩
                rw [hnotany] at this
                cases this
              · rw [if_neg hmem2] at htc; cases htc
            · rw [if_neg hmem] at hts; cases hts
          have hpres := fillMatrix_preserves_cell (mkIndices (s0 :: ss)) (mkIndices alphabet)
            (idxOf s (s0 :: ss)) (idxOf c alphabet) transitions
            (initMatrix (mkIndices (s0 :: ss)).length alphabet.length) m ?_ hno
          · rw [hpres]
            have hlen : (mkIndices (s0 :: ss)).length = (s0 :: ss).length := by
              rw [mkIndices_eq_of_nodup _ h2]
              simp [List.enum_eq_enumFrom, List.enumFrom_length]
            have hi : idxOf s (s0 :: ss) < (mkIndices (s0 :: ss)).length := by
              rw [hlen]
              exact idxOf_lt_length (s0 :: ss) s hs
            have hj : idxOf c alphabet < alphabet.length :=
              idxOf_lt_length alphabet c hc
            unfold getCell initMatrix
            rw [List.getElem?_replicate, if_pos hi]
            simp only [Option.some_bind]
            rw [List.getElem?_replicate, if_pos hj]
          · unfold fillMatrix
            exact hm
  simp only [construct]
  rw [hfill]

/- Basic facts about the rendered-syntax parser. -/

theorem safeChar_facts (c : Char) (h : isSafeChar c = true) :
    c ≠ '(' ∧ c ≠ ')' ∧ c ≠ '*' ∧ c ≠ '|' ∧
      c ≠ quoteChar ∧ c ≠ lbraceChar ∧ c ≠ rbraceChar := by
  simp only [isSafeChar, Bool.not_eq_true', Bool.or_eq_false_iff,
    decide_eq_false_iff_not] at h
  exact ⟨h.1.1.1.1.1.1, h.1.1.1.1.1.2, h.1.1.1.1.2, h.1.1.1.2, h.1.1.2, h.1.2, h.2⟩

theorem parseAtom_nil : ∀ (fuel : Nat), parseAtom fuel [] = none := by
  intro fuel
  cases fuel <;> rfl

theorem parseAtom_stop : ∀ (fuel : Nat) (c : Char) (r : Str),
    (c = ')' ∨ c = '|' ∨ c = '*') → parseAtom fuel (c :: r) = none := by
  intro fuel c r h
  cases fuel with
  | zero => rfl
  | succ f =>
    rcases h with rfl | rfl | rfl <;>
      · simp only [parseAtom]
        rw [if_neg (by decide), if_neg (by decide), if_neg (by decide), if_neg (by decide)]

theorem parseStarred_stop : ∀ (fuel : Nat) (rest : Str), StopCat rest →
    parseStarred fuel rest = none := by
  intro fuel rest h
  cases fuel with
  | zero => rfl
  | succ f =>
    cases rest with
    | nil => simp [parseStarred, parseAtom_nil]
    | cons c r =>
      have hc : c = ')' ∨ c = '|' ∨ c = '*' := by
        rcases h with h | h
        · exact Or.inl h
        · exact Or.inr (Or.inl h)
      simp [parseStarred, parseAtom_stop f c r hc]

theorem stopCat_noStar (rest : Str) (h : StopCat rest) : NoStar rest := by
  cases rest with
  | nil => trivial
  | cons c r =>
    rcases h with rfl | rfl
    · show (')' : Char) ≠ '*'
      decide
    · show ('|' : Char) ≠ '*'
      decide

theorem stopUnion_stopCat (rest : Str) (h : StopUnion rest) : StopCat rest := by
  cases rest with
  | nil => trivial
  | cons c r => exact Or.inl h

theorem starIter_star : ∀ (k : Nat) (t : RegexAst),
    starIter k (RegexAst.star t) = RegexAst.star (starIter k t) := by
  intro k
  induction k with
  | zero => intro t; rfl
  | succ k ih => intro t; simp only [starIter, ih]

theorem scanStars_replicate : ∀ (k : Nat) (t : RegexAst) (rest : Str), NoStar rest →
    scanStars t (List.replicate k '*' ++ rest) = (starIter k t, rest) := by
  intro k
  induction k with
  | zero =>
    intro t rest h
    cases rest with
    | nil => rfl
    | cons c r =>
      simp only [List.replicate, List.nil_append, scanStars]
      rw [if_neg h]
      rfl
  | succ k ih =>
    intro t rest h
    rw [List.replicate_succ, List.cons_append]
    simp only [scanStars, if_pos rfl]
    rw [ih (RegexAst.star t) rest h, starIter_star]
    rfl

theorem langOf_starIter : ∀ (k : Nat) (t : RegexAst),
    langOf (starIter (k + 1) t) = KStar.kstar (langOf t) := by
  intro k
  induction k with
  | zero => intro t; rfl
  | succ k ih =>
    intro t
    have hstep : starIter (k + 1 + 1) t = RegexAst.star (starIter (k + 1) t) := rfl
    rw [hstep]
    show KStar.kstar (langOf (starIter (k + 1) t)) = _
    rw [ih t, kstar_idem]

theorem langOf_catFold : ∀ (tl : List (Str × RegexAst)) (acc : RegexAst),
    langOf (tl.foldl (fun acc p => RegexAst.cat acc p.2) acc) =
      langOf acc * ((tl.map fun p => langOf p.2).prod) := by
  intro tl
  induction tl with
  | nil => intro acc; simp
  | cons p tl ih =>
    intro acc
    simp only [List.foldl_cons, List.map_cons, List.prod_cons]
    rw [ih]
    show langOf (RegexAst.cat acc p.2) * _ = _
    simp only [langOf]
    rw [mul_assoc]

theorem langOf_altFold : ∀ (tl : List (Str × RegexAst)) (acc : RegexAst),
    langOf (tl.foldl (fun acc p => RegexAst.alt acc p.2) acc) =
      langOf acc + ((tl.map fun p => langOf p.2).sum) := by
  intro tl
  induction tl with
  | nil => intro acc; simp
  | cons p tl ih =>
    intro acc
    simp only [List.foldl_cons, List.map_cons, List.sum_cons]
    rw [ih]
    show langOf (RegexAst.alt acc p.2) + _ = _
    simp only [langOf]
    rw [add_assoc]

theorem atomicB_ne_nil (s : Str) (t : RegexAst) (h : AtomicB s t) : s ≠ [] := by
  intro hnil
  subst hnil
  have h1 := h [] 10 (by simp)
  rw [show ([] : Str) ++ [] = [] from rfl, parseAtom_nil] at h1
  cases h1

theorem atomicB_head (s : Str) (t : RegexAst) (h : AtomicB s t) :
    ∃ c s', s = c :: s' ∧ ¬(c = ')' ∨ c = '|' ∨ c = '*') := by
  cases s with
  | nil => exact absurd rfl (atomicB_ne_nil [] t h)
  | cons c s' =>
    refine ⟨c, s', rfl, ?_⟩
    intro hc
    have h1 := h [] (8 * ((c :: s').length + 0) + 2) (le_refl _)
    rw [List.append_nil, parseAtom_stop _ c s' hc] at h1
    cases h1

theorem starredForm_noStar (s : Str) (t : RegexAst) (h : StarredForm s t) (x : Str) :
    NoStar (s ++ x) := by
  obtain ⟨a, t0, k, hA, rfl, _⟩ := h
  obtain ⟨c, s', rfl, hc⟩ := atomicB_head _ _ hA
  show NoStar (((c :: s') ++ List.replicate k '*') ++ x)
  rw [List.cons_append, List.cons_append]
  exact fun hstar => hc (Or.inr (Or.inr hstar))

theorem atomicB_sym (c : Char) (h : isSafeChar c = true) :
    AtomicB [c] (RegexAst.sym c) := by
  intro rest fuel hf
  obtain ⟨h1, _, _, _, h5, h6, _⟩ := safeChar_facts c h
  cases fuel with
  | zero => omega
  | succ f =>
    show parseAtom (f + 1) (c :: rest) = _
    simp only [parseAtom]
    rw [if_neg h1, if_neg h5, if_neg h6, if_pos h]

theorem atomicB_emptyStr : AtomicB EMPTY_STRING RegexAst.emptyStr := by
  intro rest fuel hf
  cases fuel with
  | zero => omega
  | succ f =>
    show parseAtom (f + 1) (quoteChar :: quoteChar :: rest) = _
    have hq1 : (quoteChar = '(') = False := by decide
    simp [parseAtom, hq1]

theorem atomicB_emptyLang : AtomicB EMPTY_LANGUAGE RegexAst.emptyLang := by
  intro rest fuel hf
  cases fuel with
  | zero => omega
  | succ f =>
    show parseAtom (f + 1) (lbraceChar :: rbraceChar :: rest) = _
    have hb1 : (lbraceChar = '(') = False := by decide
    have hb2 : (lbraceChar = quoteChar) = False := by decide
    have hb3 : (rbraceChar = quoteChar) = False := by decide
    simp [parseAtom, hb1, hb2, hb3]

theorem starredForm_length_pos (s : Str) (t : RegexAst) (h : StarredForm s t) :
    1 ≤ s.length := by
  obtain ⟨a, t0, k, hA, rfl, _⟩ := h
  obtain ⟨c, s', rfl, _⟩ := atomicB_head _ _ hA
  simp only [List.cons_append, List.length_cons]
  omega

theorem starredForm_b (s : Str) (t : RegexAst) (h : StarredForm s t) :
    ∀ (rest : Str) (fuel : Nat), NoStar rest →
      8 * (s.length + rest.length) + 3 ≤ fuel →
      parseStarred fuel (s ++ rest) = some (t, rest) := by
  obtain ⟨a, t0, k, hA, rfl, rfl⟩ := h
  intro rest fuel hns hf
  simp only [List.length_append, List.length_replicate] at hf
  cases fuel with
  | zero => omega
  | succ f =>
    have hA2 := hA (List.replicate k '*' ++ rest) f
      (by simp only [List.length_append, List.length_replicate]; omega)
    simp only [parseStarred, List.append_assoc, hA2]
    rw [scanStars_replicate k t0 rest hns]

theorem catTail_b : ∀ (tl : List (Str × RegexAst)) (acc : RegexAst) (rest : Str)
    (fuel : Nat), (∀ p ∈ tl, StarredForm p.1 p.2) → StopCat rest →
    8 * (((tl.map Prod.fst).flatten).length + rest.length) + 5 ≤ fuel →
    parseCatTail fuel acc ((tl.map Prod.fst).flatten ++ rest) =
      (tl.foldl (fun acc p => RegexAst.cat acc p.2) acc, rest) := by
  intro tl
  induction tl with
  | nil =>
    intro acc rest fuel _ hstop hf
    cases fuel with
    | zero => omega
    | succ f =>
      simp only [List.map_nil, List.flatten_nil, List.nil_append, List.foldl_nil,
        parseCatTail, parseStarred_stop f rest hstop]
  | cons p tl ih =>
    intro acc rest fuel hforms hstop hf
    simp only [List.map_cons, List.flatten_cons, List.length_append] at hf
    cases fuel with
    | zero => omega
    | succ f =>
      have hns : NoStar ((tl.map Prod.fst).flatten ++ rest) := by
        cases tl with
        | nil =>
          simp only [List.map_nil, List.flatten_nil, List.nil_append]
          exact stopCat_noStar rest hstop
        | cons q tl' =>
          have hq := hforms q (by simp)
          simp only [List.map_cons, List.flatten_cons, List.append_assoc]
          exact starredForm_noStar q.1 q.2 hq _
      have hp := hforms p (by simp)
      have hppos := starredForm_length_pos p.1 p.2 hp
      have hsb := starredForm_b p.1 p.2 hp ((tl.map Prod.fst).flatten ++ rest) f hns
        (by simp only [List.length_append]; omega)
      simp only [List.map_cons, List.flatten_cons, List.foldl_cons, List.append_assoc,
        parseCatTail, hsb]
      exact ih (RegexAst.cat acc p.2) rest f (fun q hq => hforms q (by simp [hq])) hstop
        (by omega)

theorem catForm_b (s : Str) (t : RegexAst) (h : CatForm s t) :
    ∀ (rest : Str) (fuel : Nat), StopCat rest →
      8 * (s.length + rest.length) + 4 ≤ fuel →
      parseCat fuel (s ++ rest) = some (t, rest) := by
  obtain ⟨hd, tl, hhd, htl, rfl, rfl⟩ := h
  intro rest fuel hstop hf
  have hpos := starredForm_length_pos hd.1 hd.2 hhd
  simp only [List.length_append] at hf
  cases fuel with
  | zero => omega
  | succ f =>
    have hns : NoStar ((tl.map Prod.fst).flatten ++ rest) := by
      cases tl with
      | nil =>
        simp only [List.map_nil, List.flatten_nil, List.nil_append]
        exact stopCat_noStar rest hstop
      | cons q tl' =>
        have hq := htl q (by simp)
        simp only [List.map_cons, List.flatten_cons, List.append_assoc]
        exact starredForm_noStar q.1 q.2 hq _
    have hsb := starredForm_b hd.1 hd.2 hhd ((tl.map Prod.fst).flatten ++ rest) f hns
      (by simp only [List.length_append]; omega)
    have hct := catTail_b tl hd.2 rest f htl hstop (by omega)
    simp only [parseCat, List.append_assoc, hsb, hct]

theorem catForm_length_pos (s : Str) (t : RegexAst) (h : CatForm s t) : 1 ≤ s.length := by
  obtain ⟨hd, tl, hhd, _, rfl, _⟩ := h
  have := starredForm_length_pos hd.1 hd.2 hhd
  simp only [List.length_append]
  omega

theorem parseUnionTail_bar (f : Nat) (acc : RegexAst) (r : Str) :
    parseUnionTail (f + 1) acc ('|' :: r) =
      match parseCat f r with
      | none => (acc, '|' :: r)
      | some (t, r') => parseUnionTail f (RegexAst.alt acc t) r' := by
  simp only [parseUnionTail]
  simp

theorem unionTail_b : ∀ (tl : List (Str × RegexAst)) (acc : RegexAst) (rest : Str)
    (fuel : Nat), (∀ p ∈ tl, CatForm p.1 p.2) → StopUnion rest →
    8 * (((tl.map (fun p => '|' :: p.1)).flatten).length + rest.length) + 7 ≤ fuel →
    parseUnionTail fuel acc ((tl.map (fun p => '|' :: p.1)).flatten ++ rest) =
      (tl.foldl (fun acc p => RegexAst.alt acc p.2) acc, rest) := by
  intro tl
  induction tl with
  | nil =>
    intro acc rest fuel _ hstop hf
    cases fuel with
    | zero => omega
    | succ f =>
      simp only [List.map_nil, List.flatten_nil, List.nil_append, List.foldl_nil]
      cases rest with
      | nil => rfl
      | cons c r =>
        simp only [parseUnionTail]
        rw [if_neg (by rw [hstop]; decide)]
  | cons p tl ih =>
    intro acc rest fuel hforms hstop hf
    simp only [List.map_cons, List.flatten_cons, List.length_append, List.length_cons] at hf
    cases fuel with
    | zero => omega
    | succ f =>
      have hp := hforms p (by simp)
      have hpos := catForm_length_pos p.1 p.2 hp
      have hstop2 : StopCat ((tl.map (fun p => '|' :: p.1)).flatten ++ rest) := by
        cases tl with
        | nil =>
          simp only [List.map_nil, List.flatten_nil, List.nil_append]
          exact stopUnion_stopCat rest hstop
        | cons q tl' =>
          simp only [List.map_cons, List.flatten_cons, List.cons_append]
          exact Or.inr rfl
      have hcb := catForm_b p.1 p.2 hp ((tl.map (fun p => '|' :: p.1)).flatten ++ rest) f
        hstop2 (by simp only [List.length_append]; omega)
      simp only [List.map_cons, List.flatten_cons, List.cons_append, List.append_assoc,
        List.foldl_cons]
      simp only [parseUnionTail_bar, hcb]
      exact ih (RegexAst.alt acc p.2) rest f (fun q hq => hforms q (by simp [hq])) hstop
        (by omega)

theorem unionForm_b (s : Str) (t : RegexAst) (h : UnionForm s t) :
    ∀ (rest : Str) (fuel : Nat), StopUnion rest →
      8 * (s.length + rest.length) + 6 ≤ fuel →
      parseUnion fuel (s ++ rest) = some (t, rest) := by
  obtain ⟨hd, tl, hhd, htl, rfl, rfl⟩ := h
  intro rest fuel hstop hf
  have hpos := catForm_length_pos hd.1 hd.2 hhd
  simp only [List.length_append] at hf
  cases fuel with
  | zero => omega
  | succ f =>
    have hstop2 : StopCat ((tl.map (fun p => '|' :: p.1)).flatten ++ rest) := by
      cases tl with
      | nil =>
        simp only [List.map_nil, List.flatten_nil, List.nil_append]
        exact stopUnion_stopCat rest hstop
      | cons q tl' =>
        simp only [List.map_cons, List.flatten_cons, List.cons_append]
        exact Or.inr rfl
    have hcb := catForm_b hd.1 hd.2 hhd ((tl.map (fun p => '|' :: p.1)).flatten ++ rest) f
      hstop2 (by simp only [List.length_append]; omega)
    have hut := unionTail_b tl hd.2 rest f htl hstop (by omega)
    simp only [parseUnion, List.append_assoc, hcb, hut]

theorem atomicB_paren (s : Str) (t : RegexAst) (h : UnionForm s t) :
    AtomicB ('(' :: s ++ [')']) t := by
  intro rest fuel hf
  simp only [List.cons_append, List.length_cons, List.length_append] at hf
  rw [List.append_assoc, List.singleton_append, List.cons_append]
  cases fuel with
  | zero => omega
  | succ f =>
    have hub := unionForm_b s t h (')' :: rest) f rfl
      (by simp only [List.length_cons]; omega)
    simp only [parseAtom, hub]
    simp

theorem starredForm_of_atomic (s : Str) (t : RegexAst) (h : AtomicB s t) :
    StarredForm s t := ⟨s, t, 0, h, by simp, rfl⟩

theorem catForm_of_starred (s : Str) (t : RegexAst) (h : StarredForm s t) :
    CatForm s t := ⟨(s, t), [], h, by simp, by simp, rfl⟩

theorem unionForm_of_cat (s : Str) (t : RegexAst) (h : CatForm s t) :
    UnionForm s t := ⟨(s, t), [], h, by simp, by simp, rfl⟩

theorem inv_unionForm (r : BasicRegex) (t : RegexAst) (h : Inv r t) :
    UnionForm r.string t := by
  cases hl : r.loosest
  · simp only [Inv, hl] at h
    exact unionForm_of_cat _ _ (catForm_of_starred _ _ (starredForm_of_atomic _ _ h))
  · simp only [Inv, hl] at h
    obtain ⟨a, t0, k, hA, hs, ht⟩ := h
    exact unionForm_of_cat _ _ (catForm_of_starred _ _ ⟨a, t0, k + 1, hA, hs, ht⟩)
  · simp only [Inv, hl] at h
    obtain ⟨hd, tl, _, hhd, htl, hs, ht⟩ := h
    exact unionForm_of_cat _ _ ⟨hd, tl, hhd, htl, hs, ht⟩
  · simp only [Inv, hl] at h
    obtain ⟨hd, tl, _, hhd, htl, hs, ht⟩ := h
    exact ⟨hd, tl, hhd, htl, hs, ht⟩

theorem pp_union_eq (r : BasicRegex) :
    r.possibly_parenthesized Operation.UNION = r.string := by
  cases hl : r.loosest <;>
    simp [BasicRegex.possibly_parenthesized, hl, Operation.val]

theorem inv_catForm_pp (r : BasicRegex) (t : RegexAst) (h : Inv r t) :
    CatForm (r.possibly_parenthesized Operation.CONCAT) t := by
  cases hl : r.loosest
  · rw [show r.possibly_parenthesized Operation.CONCAT = r.string from by
      simp [BasicRegex.possibly_parenthesized, hl, Operation.val]]
    simp only [Inv, hl] at h
    exact catForm_of_starred _ _ (starredForm_of_atomic _ _ h)
  · rw [show r.possibly_parenthesized Operation.CONCAT = r.string from by
      simp [BasicRegex.possibly_parenthesized, hl, Operation.val]]
    simp only [Inv, hl] at h
    obtain ⟨a, t0, k, hA, hs, ht⟩ := h
    exact catForm_of_starred _ _ ⟨a, t0, k + 1, hA, hs, ht⟩
  · rw [show r.possibly_parenthesized Operation.CONCAT = r.string from by
      simp [BasicRegex.possibly_parenthesized, hl, Operation.val]]
    simp only [Inv, hl] at h
    obtain ⟨hd, tl, _, hhd, htl, hs, ht⟩ := h
    exact ⟨hd, tl, hhd, htl, hs, ht⟩
  · rw [show r.possibly_parenthesized Operation.CONCAT = '(' :: r.string ++ [')'] from by
      simp [BasicRegex.possibly_parenthesized, hl, Operation.val]]
    exact catForm_of_starred _ _ (starredForm_of_atomic _ _
      (atomicB_paren _ _ (inv_unionForm r t h)))

theorem atomicB_lbrace (a' : Str) (t : RegexAst) (h : AtomicB (lbraceChar :: a') t) :
    a' = [rbraceChar] ∧ t = RegexAst.emptyLang := by
  have h1 := h [] (8 * ((lbraceChar :: a').length + 0) + 1 + 1) (by simp)
  rw [List.append_nil] at h1
  have hb1 : (lbraceChar = '(') = False := by decide
  have hb2 : (lbraceChar = quoteChar) = False := by decide
  cases a' with
  | nil => simp [parseAtom, hb1, hb2] at h1
  | cons d r' =>
    by_cases hd : d = rbraceChar
    · subst hd
      simp [parseAtom, hb1, hb2] at h1
      exact ⟨by rw [h1.2], h1.1.symm⟩
    · simp [parseAtom, hb1, hb2, hd] at h1

theorem atomicB_quote (a' : Str) (t : RegexAst) (h : AtomicB (quoteChar :: a') t) :
    a' = [quoteChar] ∧ t = RegexAst.emptyStr := by
  have h1 := h [] (8 * ((quoteChar :: a').length + 0) + 1 + 1) (by simp)
  rw [List.append_nil] at h1
  have hb1 : (quoteChar = '(') = False := by decide
  cases a' with
  | nil => simp [parseAtom, hb1] at h1
  | cons d r' =>
    by_cases hd : d = quoteChar
    · subst hd
      simp [parseAtom, hb1] at h1
      exact ⟨by rw [h1.2], h1.1.symm⟩
    · simp [parseAtom, hb1, hd] at h1

theorem inv_string_EL (r : BasicRegex) (t : RegexAst) (h : Inv r t)
    (hs : r.string = EMPTY_LANGUAGE) :
    r.loosest = Operation.NO_OP ∧ t = RegexAst.emptyLang := by
  cases hl : r.loosest
  · simp only [Inv, hl] at h
    rw [hs] at h
    have hres := atomicB_lbrace [rbraceChar] t h
    exact ⟨rfl, hres.2⟩
  · exfalso
    simp only [Inv, hl] at h
    obtain ⟨a, t0, k, _, hstr, _⟩ := h
    have hmem : '*' ∈ r.string := by
      rw [hstr]
      exact List.mem_append.2 (Or.inr (List.mem_replicate.2 ⟨Nat.succ_ne_zero k, rfl⟩))
    rw [hs] at hmem
    simp only [EMPTY_LANGUAGE, List.mem_cons, List.not_mem_nil, or_false] at hmem
    rcases hmem with hmem | hmem <;> exact absurd hmem (by decide)
  · exfalso
    simp only [Inv, hl] at h
    obtain ⟨hd, tl, htlne, hhd, htl, hstr, _⟩ := h
    obtain ⟨a, t0, k, hA, hhd1, _⟩ := hhd
    obtain ⟨c, a', hceq, _⟩ := atomicB_head a t0 hA
    rw [hs] at hstr
    rw [hhd1, hceq] at hstr
    have hstr2 : lbraceChar :: [rbraceChar] =
        c :: (a' ++ (List.replicate k '*' ++ (tl.map Prod.fst).flatten)) := by
      simpa [EMPTY_LANGUAGE, List.cons_append, List.append_assoc] using hstr
    injection hstr2 with hc htail
    subst hc
    have hres := atomicB_lbrace a' t0 (hceq ▸ hA)
    rw [hres.1] at htail
    have hlen := congrArg List.length htail
    simp only [List.length_cons, List.length_nil, List.length_append,
      List.length_replicate] at hlen
    cases tl with
    | nil => exact htlne rfl
    | cons q tl' =>
      have hq := htl q (by simp)
      have hqpos := starredForm_length_pos q.1 q.2 hq
      simp only [List.map_cons, List.flatten_cons, List.length_append] at hlen
      omega
  · exfalso
    simp only [Inv, hl] at h
    obtain ⟨hd, tl, htlne, _, _, hstr, _⟩ := h
    cases tl with
    | nil => exact htlne rfl
    | cons q tl' =>
      have hmem : '|' ∈ r.string := by
        rw [hstr]
        refine List.mem_append.2 (Or.inr (List.mem_flatten.2 ⟨'|' :: q.1, ?_, ?_⟩))
        · exact List.mem_map_of_mem _ (List.mem_cons_self q tl')
        · exact List.mem_cons_self '|' q.1
      rw [hs] at hmem
      simp only [EMPTY_LANGUAGE, List.mem_cons, List.not_mem_nil, or_false] at hmem
      rcases hmem with hmem | hmem <;> exact absurd hmem (by decide)

theorem inv_string_ES (r : BasicRegex) (t : RegexAst) (h : Inv r t)
    (hs : r.string = EMPTY_STRING) : t = RegexAst.emptyStr := by
  cases hl : r.loosest
  · simp only [Inv, hl] at h
    rw [hs] at h
    exact (atomicB_quote [quoteChar] t h).2
  · exfalso
    simp only [Inv, hl] at h
    obtain ⟨a, t0, k, _, hstr, _⟩ := h
    have hmem : '*' ∈ r.string := by
      rw [hstr]
      exact List.mem_append.2 (Or.inr (List.mem_replicate.2 ⟨Nat.succ_ne_zero k, rfl⟩))
    rw [hs] at hmem
    simp only [EMPTY_STRING, List.mem_cons, List.not_mem_nil, or_false] at hmem
    rcases hmem with hmem | hmem <;> exact absurd hmem (by decide)
  · exfalso
    simp only [Inv, hl] at h
    obtain ⟨hd, tl, htlne, hhd, htl, hstr, _⟩ := h
    obtain ⟨a, t0, k, hA, hhd1, _⟩ := hhd
    obtain ⟨c, a', hceq, _⟩ := atomicB_head a t0 hA
    rw [hs] at hstr
    rw [hhd1, hceq] at hstr
    have hstr2 : quoteChar :: [quoteChar] =
        c :: (a' ++ (List.replicate k '*' ++ (tl.map Prod.fst).flatten)) := by
      simpa [EMPTY_STRING, List.cons_append, List.append_assoc] using hstr
    injection hstr2 with hc htail
    subst hc
    have hres := atomicB_quote a' t0 (hceq ▸ hA)
    rw [hres.1] at htail
    have hlen := congrArg List.length htail
    simp only [List.length_cons, List.length_nil, List.length_append,
      List.length_replicate] at hlen
    cases tl with
    | nil => exact htlne rfl
    | cons q tl' =>
      have hq := htl q (by simp)
      have hqpos := starredForm_length_pos q.1 q.2 hq
      simp only [List.map_cons, List.flatten_cons, List.length_append] at hlen
      omega
  · exfalso
    simp only [Inv, hl] at h
    obtain ⟨hd, tl, htlne, _, _, hstr, _⟩ := h
    cases tl with
    | nil => exact htlne rfl
    | cons q tl' =>
      have hmem : '|' ∈ r.string := by
        rw [hstr]
        refine List.mem_append.2 (Or.inr (List.mem_flatten.2 ⟨'|' :: q.1, ?_, ?_⟩))
        · exact List.mem_map_of_mem _ (List.mem_cons_self q tl')
        · exact List.mem_cons_self '|' q.1
      rw [hs] at hmem
      simp only [EMPTY_STRING, List.mem_cons, List.not_mem_nil, or_false] at hmem
      rcases hmem with hmem | hmem <;> exact absurd hmem (by decide)

theorem build_inv : ∀ (tr : RegexAst), tr.safe = true →
    ∃ t, Inv (build tr) t ∧ langOf t = langOf tr := by
  intro tr
  induction tr with
  | emptyLang =>
    intro _
    exact ⟨RegexAst.emptyLang, atomicB_emptyLang, rfl⟩
  | emptyStr =>
    intro _
    exact ⟨RegexAst.emptyStr, atomicB_emptyStr, rfl⟩
  | sym c =>
    intro hsafe
    exact ⟨RegexAst.sym c, atomicB_sym c hsafe, rfl⟩
  | star tr ih =>
    intro hsafe
    obtain ⟨t, hInv, hlang⟩ := ih hsafe
    by_cases hEL : (build tr).string = EMPTY_LANGUAGE
    · have hprops := inv_string_EL (build tr) t hInv hEL
      have hstep : build (RegexAst.star tr) =
          { string := EMPTY_STRING, loosest := Operation.NO_OP } := by
        show (build tr).star = _
        unfold BasicRegex.star
        rw [if_pos hEL]
        simp [hprops.1]
      refine ⟨RegexAst.emptyStr, ?_, ?_⟩
      · rw [hstep]
        exact atomicB_emptyStr
      · show (1 : Language Char) = KStar.kstar (langOf tr)
        rw [← hlang, hprops.2]
        show (1 : Language Char) = KStar.kstar 0
        rw [kstar_zero]
    · by_cases hES : (build tr).string = EMPTY_STRING
      · have ht := inv_string_ES (build tr) t hInv hES
        have hstep : build (RegexAst.star tr) = build tr := by
          show (build tr).star = _
          unfold BasicRegex.star
          rw [if_neg hEL, if_pos hES]
        refine ⟨t, ?_, ?_⟩
        · rw [hstep]
          exact hInv
        · subst ht
          show langOf RegexAst.emptyStr = KStar.kstar (langOf tr)
          rw [← hlang]
          show (1 : Language Char) = KStar.kstar 1
          rw [kstar_one]
      · have hstep : build (RegexAst.star tr) =
            { string := (build tr).possibly_parenthesized Operation.STAR ++ ['*'],
              loosest := Operation.STAR } := by
          show (build tr).star = _
          unfold BasicRegex.star
          rw [if_neg hEL, if_neg hES]
        cases hl : (build tr).loosest
        · refine ⟨RegexAst.star t, ?_, ?_⟩
          · rw [hstep]
            simp only [Inv]
            refine ⟨(build tr).string, t, 0, ?_, ?_, rfl⟩
            · simp only [Inv, hl] at hInv
              exact hInv
            · rw [show (build tr).possibly_parenthesized Operation.STAR =
                  (build tr).string from by
                simp [BasicRegex.possibly_parenthesized, hl, Operation.val]]
              simp [List.replicate]
          · show KStar.kstar (langOf t) = KStar.kstar (langOf tr)
            rw [hlang]
        · simp only [Inv, hl] at hInv
          obtain ⟨a, t0, k, hA, hstr, htt⟩ := hInv
          refine ⟨RegexAst.star t, ?_, ?_⟩
          · rw [hstep]
            simp only [Inv]
            refine ⟨a, t0, k + 1, hA, ?_, ?_⟩
            · rw [show (build tr).possibly_parenthesized Operation.STAR =
                  (build tr).string from by
                simp [BasicRegex.possibly_parenthesized, hl, Operation.val]]
              rw [hstr, List.append_assoc, ← List.replicate_succ']
            · rw [htt]
              rfl
          · show KStar.kstar (langOf t) = KStar.kstar (langOf tr)
            rw [hlang]
        · refine ⟨RegexAst.star t, ?_, ?_⟩
          · rw [hstep]
            simp only [Inv]
            refine ⟨'(' :: (build tr).string ++ [')'], t, 0, ?_, ?_, rfl⟩
            · exact atomicB_paren _ _ (inv_unionForm _ _ hInv)
            · rw [show (build tr).possibly_parenthesized Operation.STAR =
                  '(' :: (build tr).string ++ [')'] from by
                simp [BasicRegex.possibly_parenthesized, hl, Operation.val]]
              simp [List.replicate]
          · show KStar.kstar (langOf t) = KStar.kstar (langOf tr)
            rw [hlang]
        · refine ⟨RegexAst.star t, ?_, ?_⟩
          · rw [hstep]
            simp only [Inv]
            refine ⟨'(' :: (build tr).string ++ [')'], t, 0, ?_, ?_, rfl⟩
            · exact atomicB_paren _ _ (inv_unionForm _ _ hInv)
            · rw [show (build tr).possibly_parenthesized Operation.STAR =
                  '(' :: (build tr).string ++ [')'] from by
                simp [BasicRegex.possibly_parenthesized, hl, Operation.val]]
              simp [List.replicate]
          · show KStar.kstar (langOf t) = KStar.kstar (langOf tr)
            rw [hlang]
  | cat tra trb iha ihb =>
    intro hsafe
    simp only [RegexAst.safe, Bool.and_eq_true] at hsafe
    obtain ⟨ta, hInva, hlanga⟩ := iha hsafe.1
    obtain ⟨tb, hInvb, hlangb⟩ := ihb hsafe.2
    by_cases hEL2 : (build trb).string = EMPTY_LANGUAGE
    · have hstep : build (RegexAst.cat tra trb) =
          { string := EMPTY_LANGUAGE, loosest := Operation.NO_OP } := by
        show (build tra).concat (build trb) = _
        unfold BasicRegex.concat
        rw [if_pos hEL2]
      refine ⟨RegexAst.emptyLang, ?_, ?_⟩
      · rw [hstep]
        exact atomicB_emptyLang
      · have htb := (inv_string_EL _ _ hInvb hEL2).2
        show (0 : Language Char) = langOf tra * langOf trb
        rw [← hlangb, htb]
        show (0 : Language Char) = langOf tra * 0
        rw [mul_zero]
    · by_cases hES1 : (build tra).string = EMPTY_STRING
      · have hstep : build (RegexAst.cat tra trb) = build trb := by
          show (build tra).concat (build trb) = _
          unfold BasicRegex.concat
          rw [if_neg hEL2, if_pos hES1]
        refine ⟨tb, ?_, ?_⟩
        · rw [hstep]
          exact hInvb
        · have hta := inv_string_ES _ _ hInva hES1
          show langOf tb = langOf tra * langOf trb
          rw [hlangb, ← hlanga, hta]
          show langOf trb = 1 * langOf trb
          rw [one_mul]
      · by_cases h3 : (build tra).string ≠ EMPTY_LANGUAGE ∧
            (build trb).string ≠ EMPTY_STRING
        · have hstep : build (RegexAst.cat tra trb) =
              { string := (build tra).possibly_parenthesized Operation.CONCAT ++
                  (build trb).possibly_parenthesized Operation.CONCAT,
                loosest := Operation.CONCAT } := by
            show (build tra).concat (build trb) = _
            unfold BasicRegex.concat
            rw [if_neg hEL2, if_neg hES1, if_pos h3]
          obtain ⟨hda, tla, hhda, htla, hsa2, hta2⟩ := inv_catForm_pp _ ta hInva
          obtain ⟨hdb, tlb, hhdb, htlb, hsb2, htb2⟩ := inv_catForm_pp _ tb hInvb
          refine ⟨(tla ++ hdb :: tlb).foldl (fun acc p => RegexAst.cat acc p.2) hda.2,
            ?_, ?_⟩
          · rw [hstep]
            simp only [Inv]
            refine ⟨hda, tla ++ hdb :: tlb, by simp, hhda, ?_, ?_, rfl⟩
            · intro p hp
              rcases List.mem_append.1 hp with hp | hp
              · exact htla p hp
              · rcases List.mem_cons.1 hp with hp | hp
                · rw [hp]; exact hhdb
                · exact htlb p hp
            · rw [hsa2, hsb2]
              simp [List.map_append, List.flatten_append, List.map_cons,
                List.flatten_cons, List.append_assoc]
          · rw [List.foldl_append, ← hta2]
            simp only [List.foldl_cons]
            rw [langOf_catFold]
            show langOf (RegexAst.cat ta hdb.2) * _ = langOf tra * langOf trb
            simp only [langOf]
            rw [mul_assoc, ← langOf_catFold, ← htb2, hlanga, hlangb]
        · by_cases hEL1 : (build tra).string = EMPTY_LANGUAGE
          · have hstep : build (RegexAst.cat tra trb) = build tra := by
              show (build tra).concat (build trb) = _
              unfold BasicRegex.concat
              rw [if_neg hEL2, if_neg hES1, if_neg h3]
            refine ⟨ta, ?_, ?_⟩
            · rw [hstep]
              exact hInva
            · have hta := (inv_string_EL _ _ hInva hEL1).2
              show langOf ta = langOf tra * langOf trb
              rw [← hlanga, hta]
              show (0 : Language Char) = 0 * langOf trb
              rw [zero_mul]
          · have hES2 : (build trb).string = EMPTY_STRING := by
              by_contra hno
              exact h3 ⟨hEL1, hno⟩
            have hstep : build (RegexAst.cat tra trb) = build tra := by
              show (build tra).concat (build trb) = _
              unfold BasicRegex.concat
              rw [if_neg hEL2, if_neg hES1, if_neg h3]
            refine ⟨ta, ?_, ?_⟩
            · rw [hstep]
              exact hInva
            · have htb := inv_string_ES _ _ hInvb hES2
              show langOf ta = langOf tra * langOf trb
              rw [← hlangb, htb, hlanga]
              show langOf tra = langOf tra * 1
              rw [mul_one]
  | alt tra trb iha ihb =>
    intro hsafe
    simp only [RegexAst.safe, Bool.and_eq_true] at hsafe
    obtain ⟨ta, hInva, hlanga⟩ := iha hsafe.1
    obtain ⟨tb, hInvb, hlangb⟩ := ihb hsafe.2
    by_cases hEL1 : (build tra).string = EMPTY_LANGUAGE
    · have hstep : build (RegexAst.alt tra trb) = build trb := by
        show (build tra).union (build trb) = _
        unfold BasicRegex.union
        rw [if_pos hEL1]
      refine ⟨tb, ?_, ?_⟩
      · rw [hstep]
        exact hInvb
      · have hta := (inv_string_EL _ _ hInva hEL1).2
        show langOf tb = langOf tra + langOf trb
        rw [hlangb, ← hlanga, hta]
        show langOf trb = 0 + langOf trb
        rw [zero_add]
    · by_cases hEL2 : (build trb).string = EMPTY_LANGUAGE
      · have hstep : build (RegexAst.alt tra trb) = build tra := by
          show (build tra).union (build trb) = _
          unfold BasicRegex.union
          rw [if_neg hEL1, if_neg (not_not_intro hEL2)]
        refine ⟨ta, ?_, ?_⟩
        · rw [hstep]
          exact hInva
        · have htb := (inv_string_EL _ _ hInvb hEL2).2
          show langOf ta = langOf tra + langOf trb
          rw [hlanga, ← hlangb, htb]
          show langOf tra = langOf tra + 0
          rw [add_zero]
      · have hstep : build (RegexAst.alt tra trb) =
            { string := (build tra).possibly_parenthesized Operation.UNION ++
                '|' :: (build trb).possibly_parenthesized Operation.UNION,
              loosest := Operation.UNION } := by
          show (build tra).union (build trb) = _
          unfold BasicRegex.union
          rw [if_neg hEL1, if_pos hEL2]
        obtain ⟨hda, tla, hhda, htla, hsa2, hta2⟩ := inv_unionForm _ ta hInva
        obtain ⟨hdb, tlb, hhdb, htlb, hsb2, htb2⟩ := inv_unionForm _ tb hInvb
        refine ⟨(tla ++ hdb :: tlb).foldl (fun acc p => RegexAst.alt acc p.2) hda.2,
          ?_, ?_⟩
        · rw [hstep]
          simp only [Inv]
          refine ⟨hda, tla ++ hdb :: tlb, by simp, hhda, ?_, ?_, rfl⟩
          · intro p hp
            rcases List.mem_append.1 hp with hp | hp
            · exact htla p hp
            · rcases List.mem_cons.1 hp with hp | hp
              · rw [hp]; exact hhdb
              · exact htlb p hp
          · rw [pp_union_eq, pp_union_eq, hsa2, hsb2]
            simp [List.map_append, List.flatten_append, List.map_cons,
              List.flatten_cons, List.append_assoc]
        · rw [List.foldl_append, ← hta2]
          simp only [List.foldl_cons]
          rw [langOf_altFold]
          show langOf (RegexAst.alt ta hdb.2) + _ = langOf tra + langOf trb
          simp only [langOf]
          rw [add_assoc, ← langOf_altFold, ← htb2, hlanga, hlangb]

/-- C9 counterexample: rendering is not always syntactically valid and can
change the denoted language. The expression star of the bar symbol renders
as a string with a leading bar that does not parse, and the concatenation
of the left-brace and right-brace symbols renders as exactly the
empty-language sentinel text, which denotes the empty language although the
expression tree contains the two-character string. -/
theorem c9_render_counterexample :
    (build (RegexAst.star (RegexAst.sym '|'))).string = ['|', '*'] ∧
    parse ['|', '*'] = none ∧
    (build (RegexAst.cat (RegexAst.sym lbraceChar) (RegexAst.sym rbraceChar))).string =
      BasicRegex.empty_language.string ∧
    [lbraceChar, rbraceChar] ∈
      langOf (RegexAst.cat (RegexAst.sym lbraceChar) (RegexAst.sym rbraceChar)) ∧
    parse (build (RegexAst.cat (RegexAst.sym lbraceChar) (RegexAst.sym rbraceChar))).string =
      some RegexAst.emptyLang ∧
    [lbraceChar, rbraceChar] ∉ langOf RegexAst.emptyLang := by
  refine ⟨rfl, rfl, rfl, ?_, rfl, ?_⟩
  · show [lbraceChar, rbraceChar] ∈
      ({[lbraceChar]} : Language Char) * ({[rbraceChar]} : Language Char)
    rw [Language.mem_mul]
    exact ⟨[lbraceChar], rfl, [rbraceChar], rfl, rfl⟩
  · exact Language.not_mem_zero _

/-- C9 amended: an operand is wrapped in parentheses exactly when the
operator being applied binds tighter than the loosest operator previously
applied to it, and for every expression whose symbols avoid the reserved
characters (parentheses, star, bar, quote and braces), the rendered text
parses, under the standard grammar extended with the two sentinel atoms, to
a tree denoting the same language as the abstract expression tree. -/
theorem c9_render_parses_to_same_language :
    (∀ (r : BasicRegex) (op : Operation),
      r.possibly_parenthesized op =
        if op.val < r.loosest.val then '(' :: r.string ++ [')'] else r.string) ∧
    ∀ tr : RegexAst, tr.safe = true →
      ∃ t, parse (build tr).string = some t ∧ langOf t = langOf tr := by
  refine ⟨fun r op => rfl, ?_⟩
  intro tr hsafe
  obtain ⟨t, hInv, hlang⟩ := build_inv tr hsafe
  refine ⟨t, ?_, hlang⟩
  have hub := unionForm_b (build tr).string t (inv_unionForm _ _ hInv) []
    (8 * (build tr).string.length + 8) trivial
    (by simp only [List.length_nil]; omega)
  rw [List.append_nil] at hub
  simp only [parse, hub]

/-- C9 amended witness: the parse and language agreement instantiated at
the expression a union star of b. -/
theorem c9_render_parses_witness :
    (RegexAst.alt (RegexAst.sym 'a') (RegexAst.star (RegexAst.sym 'b'))).safe = true ∧
    ∃ t, parse (build (RegexAst.alt (RegexAst.sym 'a')
        (RegexAst.star (RegexAst.sym 'b')))).string = some t ∧
      langOf t = langOf (RegexAst.alt (RegexAst.sym 'a')
        (RegexAst.star (RegexAst.sym 'b'))) := by
  exact ⟨by decide, c9_render_parses_to_same_language.2 _ (by decide)⟩

/-- C10 amended witness: the invariance instantiated at the two-state
definition omitting the pair of state b and symbol x. -/
theorem c10_completion_invariant_witness :
    ([idA, idB] : List Str).Nodup ∧ ([symX] : List Str).Nodup ∧
    construct [idA, idB] [symX] (completion [idA, idB] [symX] [(idA, symX, idA)]) idA [idA]
        true =
      construct [idA, idB] [symX] [(idA, symX, idA)] idA [idA] true := by
  exact ⟨by decide, by decide,
    c10_completion_invariant [idA, idB] [symX] [(idA, symX, idA)] idA [idA] true
      (by decide) (by decide)⟩

end Fsa
